import Mathlib

/-!
Verification development for the fastmoe transformer MLP adaptation
(src/fmoe/transformer.py).

The file shallow-embeds the module in Lean:

* a token batch is a list of rows, each row a list of rationals (real-valued
  tensor entries are idealised as exact rationals);
* the fused per-expert linear primitive FMoELinear and the per-expert
  convolution sub-modules of FMoEConv live in fmoe/layers.py, which is not
  part of the sources; they are modelled from the spec, as marked on each
  definition;
* the code of class _LinearExpert, class _ConvExpert and class
  FMoETransformerMLP is translated directly from src/fmoe/transformer.py;
* fallible tensor operations (torch.cat on an empty list, reshape with an
  incompatible element count) are embedded in Option, none standing for a
  raised runtime error.
-/

/-- Token batches and intermediate 2-d tensors: a list of rows of rationals. -/
abbrev Mat : Type := List (List ℚ)

/-- Shape of a per-expert convolution sub-module: a map on 2-d tensors laid
out channels-by-positions. -/
abbrev MatFn : Type := Mat → Mat

/-- Dot product of two rational vectors. -/
def dotQ (xs ys : List ℚ) : ℚ := (List.zipWith (· * ·) xs ys).sum

/-- Affine map of one token row: one output coordinate per weight-row/bias
pair, as computed by a linear layer with weight rows W and bias b. -/
def affineRow (W : Mat) (b : List ℚ) (x : List ℚ) : List ℚ :=
  List.zipWith (fun w bi => dotQ w x + bi) W b

/-- Transpose of a rectangular matrix given as a list of rows, with the
number of columns passed explicitly; entry j of each output row is read with
getD, which agrees with the true entry on rectangular input. -/
def transposeM (ncols : ℕ) (M : Mat) : Mat :=
  (List.range ncols).map (fun j => M.map (fun row => row.getD j 0))

/-- Length of the first row of a matrix: the column count of a rectangular
matrix, as used by the layout-only tensor.transpose(1, 0) operation. -/
def widthM (M : Mat) : ℕ := (M.getD 0 []).length

/-- Embedding of tensor.transpose(1, 0) on a rectangular 2-d tensor. -/
def transpose2 (M : Mat) : Mat := transposeM (widthM M) M

/-- Embedding of the column slice tensor[:, a : b] (also tensor[:, :, a : b]
on a tensor with a leading singleton dimension): Python slices clamp out of
range bounds instead of raising, exactly as drop/take do. -/
def colSlice (a b : ℕ) (M : Mat) : Mat :=
  M.map (fun row => (row.drop a).take (b - a))

/-- Modelled from the spec: the fused linear primitive FMoELinear of
fmoe/layers.py (not under the sources).  Section 4.1 of the spec: the
primitive consumes the grouped token tensor together with the per-expert
counts, internally slices the batch by expert, applies expert i's affine map
to every row of slice i, and concatenates the results preserving order;
zero-count experts contribute no rows.  weight holds one out-by-in matrix
per expert, bias one vector per expert. -/
structure FMoELinear where
  weight : List Mat
  bias : List (List ℚ)
  deriving DecidableEq

/-- Modelled from the spec: the slicing loop inside the fused FMoELinear
primitive, recursing over per-expert weights, biases and counts while
consuming the grouped batch. -/
def fmoeLoop : List Mat → List (List ℚ) → List ℕ → Mat → Mat
  | W :: Ws, b :: bs, c :: cs, inp =>
      (inp.take c).map (affineRow W b) ++ fmoeLoop Ws bs cs (inp.drop c)
  | _, _, _, _ => []

/-- Modelled from the spec: application of the fused FMoELinear primitive to
a grouped batch with its per-expert counts. -/
def FMoELinear.apply (m : FMoELinear) (inp : Mat) (counts : List ℕ) : Mat :=
  fmoeLoop m.weight m.bias counts inp

/-- The expert module _LinearExpert of src/fmoe/transformer.py: two fused
FMoELinear layers around an elementwise activation (the Lean name drops the
leading underscore).  The activation module is embedded as an elementwise
rational function. -/
structure LinearExpert where
  htoh4 : FMoELinear
  h4toh : FMoELinear
  activation : ℚ → ℚ

/-- Translation of _LinearExpert.forward (src/fmoe/transformer.py lines
22-30): x = htoh4(inp, counts); x = activation(x); x = h4toh(x, counts). -/
def LinearExpert.forward (e : LinearExpert) (inp : Mat) (fwd_expert_count : List ℕ) : Mat :=
  let x := e.htoh4.apply inp fwd_expert_count
  let x2 := x.map (List.map e.activation)
  e.h4toh.apply x2 fwd_expert_count

/-- Modelled from the spec: one expert's degenerate 1-by-1 convolution
sub-module of FMoEConv (fmoe/layers.py, not under the sources) with
kernel_size = 1 and dilation = 1, acting on a channels-by-positions tensor:
output entry at channel j, position t is bias j plus the dot product of
weight row j with the input column at position t.  The kernel_size-1 index
of the torch weight tensor is collapsed, so W is out-channels by
in-channels. -/
def conv1x1 (W : Mat) (b : List ℚ) (M : Mat) : Mat :=
  List.zipWith (fun w bi => (transpose2 M).map (fun col => dotQ w col + bi)) W b

/-- The expert module _ConvExpert of src/fmoe/transformer.py (the Lean name
drops the leading underscore).  The per-expert convolution sub-modules
self.htoh4.experts[i] and self.h4toh.experts[i] are kept as lists of tensor
maps; by construction of FMoEConv both lists have num_expert entries, so the
loop for i in range(self.num_expert) indexing experts[i] and
fwd_expert_count[i] is embedded as a recursion over the experts list zipped
with the counts list. -/
structure ConvExpert where
  d_model : ℕ
  htoh4 : List MatFn
  h4toh : List MatFn
  activation : ℚ → ℚ

/-- Translation of the slicing loops of _ConvExpert.forward
(src/fmoe/transformer.py lines 53-61 and 66-73): for each expert i with
fwd_expert_count[i] > 0, slice columns idx to idx + count out of the
transposed batch, apply the expert sub-module and advance idx; zero-count
experts are skipped without advancing idx. -/
def convOutputs : List (MatFn × ℕ) → ℕ → Mat → List Mat
  | [], _, _ => []
  | (f, c) :: rest, idx, M =>
      if 0 < c then f (colSlice idx (idx + c) M) :: convOutputs rest (idx + c) M
      else convOutputs rest idx M

/-- Horizontal concatenation of matrices that share their row count, as
performed by torch.cat(outputs, dim=2) on a nonempty list. -/
def hcat : List Mat → Mat
  | [] => []
  | [M] => M
  | M :: Ms => List.zipWith (· ++ ·) M (hcat Ms)

/-- Embedding of torch.cat(outputs, dim=2): torch.cat raises a runtime error
on an empty list of tensors, embedded as none. -/
def torchCat2 (ts : List Mat) : Option Mat :=
  match ts with
  | [] => none
  | _ => some (hcat ts)

/-- Translation of _ConvExpert.forward (src/fmoe/transformer.py lines
48-77).  The source transposes the batch to channels-by-positions, runs the
htoh4 expert loop, concatenates with torch.cat, applies the activation to
the whole concatenated tensor, runs the h4toh expert loop, concatenates
again, and transposes back.  The view(1, self.d_model, -1) and
view(self.d_model, -1) steps only add or remove a leading singleton
dimension of a rectangular channels-by-positions tensor, so they are the
identity on the 2-d representation used here. -/
def ConvExpert.forward (e : ConvExpert) (inp : Mat) (fwd_expert_count : List ℕ) : Option Mat :=
  (torchCat2 (convOutputs (e.htoh4.zip fwd_expert_count) 0 (transpose2 inp))).bind
    (fun x =>
      (torchCat2 (convOutputs (e.h4toh.zip fwd_expert_count) 0
        (x.map (List.map e.activation)))).bind
      (fun y => some (transpose2 y)))

/-- Tensor with an explicit shape and row-major flat data, for the wrapper
module that reshapes its input; a well-formed torch tensor satisfies
data.length = shape.prod. -/
structure Tensor where
  shape : List ℕ
  data : List ℚ
  deriving DecidableEq

/-- Row-major regrouping of flat data into n rows of length d (the fuel n is
the row count, so the recursion is structural). -/
def chunkRows (n d : ℕ) (xs : List ℚ) : Mat :=
  match n with
  | 0 => []
  | n + 1 => xs.take d :: chunkRows n d (xs.drop d)

/-- Embedding of inp.reshape(-1, d) producing the flattened token batch as a
list of rows: torch raises when the element count is not a positive
multiple of d, embedded as none. -/
def Tensor.reshapeRows (d : ℕ) (t : Tensor) : Option Mat :=
  if 0 < d ∧ d ∣ t.data.length then some (chunkRows (t.data.length / d) d t.data) else none

/-- Embedding of output.reshape(original_shape): torch raises when the
element count does not match the target shape, embedded as none. -/
def Tensor.ofRows (shape : List ℕ) (rows : Mat) : Option Tensor :=
  if shape.prod = rows.flatten.length then some ⟨shape, rows.flatten⟩ else none

/-- Identity of the expert-implementation selector passed as the expert
argument of FMoETransformerMLP.__init__: the constructor compares it
against the classes _LinearExpert and _ConvExpert; any other value falls in
the third constructor. -/
inductive ExpertImpl : Type
  | linearImpl : ExpertImpl
  | convImpl : ExpertImpl
  | otherImpl : ExpertImpl
  deriving DecidableEq

/-- The experts sub-module held by the wrapper after construction. -/
inductive ExpertsModule : Type
  | linearE : LinearExpert → ExpertsModule
  | convE : ConvExpert → ExpertsModule

/-- Translation of the expert-selection branch of FMoETransformerMLP.__init__
(src/fmoe/transformer.py lines 117-123): an if/elif chain over the selector
with no else branch and no raise, so an unrecognised selector leaves
self.experts unassigned, embedded as none. -/
def selectExperts (expert : ExpertImpl) (lin : LinearExpert) (conv : ConvExpert) :
    Option ExpertsModule :=
  match expert with
  | .linearImpl => some (.linearE lin)
  | .convImpl => some (.convE conv)
  | .otherImpl => none

/-- The wrapper module FMoETransformerMLP.  The inherited FMoE
dispatch-compute-combine pipeline invoked as super().forward lives in
fmoe/layers.py, which is not under the sources; it is carried as the
abstract batch transformation superForward (its contract is the predicate
PipeContract below). -/
structure FMoETransformerMLP where
  d_model : ℕ
  superForward : Mat → Mat
  experts : Option ExpertsModule

/-- Translation of FMoETransformerMLP.__init__ (src/fmoe/transformer.py
lines 92-123) restricted to the state relevant here: the constructor body
contains no raise statement, so construction always succeeds and returns
the module, with the experts field produced by the selection branch. -/
def FMoETransformerMLP.init (expert : ExpertImpl) (lin : LinearExpert) (conv : ConvExpert)
    (d_model : ℕ) (superF : Mat → Mat) : FMoETransformerMLP :=
  { d_model := d_model, superForward := superF, experts := selectExperts expert lin conv }

/-- Translation of FMoETransformerMLP.forward (src/fmoe/transformer.py lines
125-133): record the original shape, reshape the input to (-1, d_model),
delegate to the inherited pipeline, reshape the result back. -/
def FMoETransformerMLP.forward (m : FMoETransformerMLP) (inp : Tensor) : Option Tensor :=
  let original_shape := inp.shape
  (inp.reshapeRows m.d_model).bind
    (fun rows => Tensor.ofRows original_shape (m.superForward rows))

/-- Count of tensor parameters of the forward entry point in the source:
the signature at src/fmoe/transformer.py line 125 is forward(self, inp),
one tensor argument beside self and no auxiliary gating-feature
parameter. -/
def FMoETransformerMLP.forwardTensorArgs : ℕ := 1

/-- Modelled from the spec: the contract of the inherited FMoE
dispatch-compute-combine pipeline (class FMoE of fmoe/layers.py, not under
the sources).  Sections 2 and 4.3 of the spec: the pipeline consumes the
flattened 2-d token batch and returns one output row per input token, each
of dimension d_model, recombined into original token order. -/
def PipeContract (d : ℕ) (F : Mat → Mat) : Prop :=
  ∀ rows : Mat, (F rows).length = rows.length ∧ ∀ r ∈ F rows, r.length = d

/-- Index of the expert owning token position t under a per-expert count
vector, following the contiguous ascending-expert grouping invariant. -/
def expertOfIdx : List ℕ → ℕ → ℕ
  | [], _ => 0
  | c :: cs, t => if t < c then 0 else expertOfIdx cs (t - c) + 1

/-- Per-token transformation realised by the fused-linear expert for the
expert owning position t: expansion projection, elementwise activation,
contraction projection, all with the weights of that one expert. -/
def linTokenMap (e : LinearExpert) (counts : List ℕ) (t : ℕ) (x : List ℚ) : List ℚ :=
  let i := expertOfIdx counts t
  affineRow (e.h4toh.weight.getD i []) (e.h4toh.bias.getD i [])
    ((affineRow (e.htoh4.weight.getD i []) (e.htoh4.bias.getD i []) x).map e.activation)

/-- Reference form of one stage of the per-expert convolution loop, written
from the words of section 4.2 of the spec: iterate experts in ascending
order, give expert i the contiguous group of count[i] tokens (transposed to
the convolution layout), transpose its result back to rows and concatenate
along the token axis.  Used to compare the source translation against the
spec. -/
def stageRows (d : ℕ) : List MatFn → List ℕ → Mat → Mat
  | f :: fs, c :: cs, Y =>
      transposeM ((Y.take c).length) (f (transposeM d (Y.take c))) ++
        stageRows d fs cs (Y.drop c)
  | _, _, _ => []

/-- Shape contract of one per-expert convolution sub-module, from section
4.2 of the spec: on a group of tokens of width d (fed in channels-first
layout) it produces h output channels and one output position per input
token, so that the variant returns exactly one row per token. -/
def OutShape (d h : ℕ) (f : MatFn) : Prop :=
  ∀ Y : Mat, (∀ r ∈ Y, r.length = d) →
    (f (transposeM d Y)).length = h ∧ ∀ r ∈ f (transposeM d Y), r.length = Y.length

lemma length_transposeM (n : ℕ) (M : Mat) : (transposeM n M).length = n := by
  simp [transposeM]

lemma getElem_transposeM (n : ℕ) (M : Mat) (j : ℕ) (hj : j < (transposeM n M).length) :
    (transposeM n M)[j] = M.map (fun row => row.getD j 0) := by
  simp [transposeM]

lemma length_of_mem_transposeM (n : ℕ) (M : Mat) (r : List ℚ) (hr : r ∈ transposeM n M) :
    r.length = M.length := by
  simp only [transposeM, List.mem_map] at hr
  obtain ⟨j, hj, rfl⟩ := hr
  simp

lemma map_getD_range (l : List ℚ) (n : ℕ) (h : l.length = n) :
    (List.range n).map (fun j => l.getD j 0) = l := by
  apply List.ext_getElem
  · simp [h]
  · intro i h1 h2
    simp only [List.getElem_map, List.getElem_range]
    exact List.getD_eq_getElem l 0 h2

lemma transposeM_transposeM (w : ℕ) (Z : Mat) (hZ : ∀ r ∈ Z, r.length = w) :
    transposeM Z.length (transposeM w Z) = Z := by
  apply List.ext_getElem
  · simp [length_transposeM]
  · intro t h1 h2
    rw [getElem_transposeM]
    have hmem : Z.getD t [] ∈ Z := by
      rw [List.getD_eq_getElem _ _ h2]
      exact List.getElem_mem h2
    have step : (transposeM w Z).map (fun row => row.getD t 0)
        = (List.range w).map (fun j => (Z.getD t []).getD j 0) := by
      simp only [transposeM, List.map_map]
      apply List.map_congr_left
      intro j hj
      simp only [Function.comp]
      rw [List.getD_eq_getElem _ _ (by simpa using h2), List.getElem_map,
        List.getD_eq_getElem _ _ h2]
    rw [step, map_getD_range _ _ (hZ _ hmem), List.getD_eq_getElem _ _ h2]

lemma colSlice_transposeM (a c w : ℕ) (X : Mat) :
    colSlice a (a + c) (transposeM w X) = transposeM w ((X.drop a).take c) := by
  simp only [colSlice, transposeM, List.map_map]
  apply List.map_congr_left
  intro j hj
  simp only [Function.comp]
  have hc : a + c - a = c := by omega
  rw [hc, List.map_take, List.map_drop]

lemma map_map_transposeM (σ : ℚ → ℚ) (h : ℕ) (A : Mat) (hA : ∀ r ∈ A, r.length = h) :
    (transposeM h A).map (List.map σ) = transposeM h (A.map (List.map σ)) := by
  simp only [transposeM, List.map_map]
  apply List.map_congr_left
  intro j hj
  simp only [Function.comp, List.map_map]
  apply List.map_congr_left
  intro r hr
  have hjr : j < r.length := by
    rw [hA r hr]; exact List.mem_range.mp hj
  simp only [Function.comp_apply]
  rw [List.getD_eq_getElem _ _ hjr, List.getD_eq_getElem _ _ (by simpa using hjr),
    List.getElem_map]

lemma transposeM_append (w : ℕ) (A B : Mat) :
    transposeM w (A ++ B) = List.zipWith (· ++ ·) (transposeM w A) (transposeM w B) := by
  apply List.ext_getElem
  · simp [length_transposeM]
  · intro j h1 h2
    rw [List.getElem_zipWith, getElem_transposeM, getElem_transposeM, getElem_transposeM,
      List.map_append]

lemma stageRows_nil_of_allZero (d : ℕ) :
    ∀ (fs : List MatFn) (cs : List ℕ) (Y : Mat),
    (∀ c ∈ cs, c = 0) → stageRows d fs cs Y = [] := by
  intro fs
  induction fs with
  | nil => intro cs Y _; cases cs <;> simp [stageRows]
  | cons f fs ih =>
    intro cs Y hz
    cases cs with
    | nil => simp [stageRows]
    | cons c cs =>
      have hc : c = 0 := hz c (by simp)
      subst hc
      simp [stageRows, transposeM, ih cs _ (fun c hc => hz c (by simp [hc]))]

lemma convOutputs_eq_nil_of (l : List (MatFn × ℕ)) :
    ∀ (idx : ℕ) (M : Mat), (∀ p ∈ l, p.2 = 0) → convOutputs l idx M = [] := by
  induction l with
  | nil => intro idx M _; simp [convOutputs]
  | cons p l ih =>
    intro idx M h
    obtain ⟨f, c⟩ := p
    have hc : c = 0 := h (f, c) (by simp)
    subst hc
    simp only [convOutputs, lt_irrefl, if_false]
    exact ih idx M (fun q hq => h q (by simp [hq]))

lemma convOutputs_ne_nil (l : List (MatFn × ℕ)) :
    ∀ (idx : ℕ) (M : Mat), (∃ p ∈ l, 0 < p.2) → convOutputs l idx M ≠ [] := by
  induction l with
  | nil =>
    intro idx M h
    obtain ⟨p, hp, _⟩ := h
    exact absurd hp (List.not_mem_nil p)
  | cons p l ih =>
    intro idx M h
    obtain ⟨f, c⟩ := p
    by_cases hc : 0 < c
    · simp [convOutputs, hc]
    · have hc0 : c = 0 := by omega
      subst hc0
      simp only [convOutputs, lt_irrefl, if_false]
      apply ih
      obtain ⟨q, hq, hq2⟩ := h
      rcases List.mem_cons.mp hq with h1 | h2
      · subst h1; simp at hq2
      · exact ⟨q, h2, hq2⟩

lemma allZero_of_convOutputs_eq_nil (l : List (MatFn × ℕ)) :
    ∀ (idx : ℕ) (M : Mat), convOutputs l idx M = [] → ∀ p ∈ l, p.2 = 0 := by
  induction l with
  | nil => intro idx M _ p hp; simp at hp
  | cons q l ih =>
    intro idx M h p hp
    obtain ⟨f, c⟩ := q
    by_cases hc : 0 < c
    · simp [convOutputs, hc] at h
    · have hc0 : c = 0 := by omega
      subst hc0
      simp only [convOutputs, lt_irrefl, if_false] at h
      rcases List.mem_cons.mp hp with h1 | h2
      · subst h1; rfl
      · exact ih idx M h p h2

lemma snd_zip_forall {α β : Type} (fs : List α) (cs : List β) (P : β → Prop)
    (hl : cs.length ≤ fs.length) (h : ∀ p ∈ fs.zip cs, P p.2) : ∀ c ∈ cs, P c := by
  intro c hc
  rw [← List.map_snd_zip fs cs hl] at hc
  obtain ⟨p, hp, rfl⟩ := List.mem_map.mp hc
  exact h p hp

lemma hcat_cons (M : Mat) (Ms : List Mat) (h : Ms ≠ []) :
    hcat (M :: Ms) = List.zipWith (· ++ ·) M (hcat Ms) := by
  cases Ms with
  | nil => exact absurd rfl h
  | cons N Ns => rfl

lemma stageRows_rect (d h : ℕ) :
    ∀ (fs : List MatFn) (cs : List ℕ) (Y : Mat),
    (∀ f ∈ fs, OutShape d h f) → (∀ r ∈ Y, r.length = d) →
    ∀ r ∈ stageRows d fs cs Y, r.length = h := by
  intro fs
  induction fs with
  | nil => intro cs Y _ _ r hr; cases cs <;> simp [stageRows] at hr
  | cons f fs ih =>
    intro cs Y hf hY r hr
    cases cs with
    | nil => simp [stageRows] at hr
    | cons c cs =>
      simp only [stageRows] at hr
      rcases List.mem_append.mp hr with h1 | h2
      · have hG : ∀ r ∈ Y.take c, r.length = d :=
          fun r hr => hY r (List.mem_of_mem_take hr)
        have := length_of_mem_transposeM _ _ _ h1
        rw [this]
        exact ((hf f (by simp)) (Y.take c) hG).1
      · exact ih cs (Y.drop c) (fun g hg => hf g (by simp [hg]))
          (fun r hr => hY r (List.mem_of_mem_drop hr)) r h2

lemma stageRows_length (d : ℕ) :
    ∀ (fs : List MatFn) (cs : List ℕ) (Y : Mat),
    fs.length = cs.length → cs.sum ≤ Y.length →
    (stageRows d fs cs Y).length = cs.sum := by
  intro fs
  induction fs with
  | nil =>
    intro cs Y hl _
    have : cs = [] := by
      cases cs with
      | nil => rfl
      | cons c cs => simp at hl
    subst this; simp [stageRows]
  | cons f fs ih =>
    intro cs Y hl hs
    cases cs with
    | nil => simp at hl
    | cons c cs =>
      have hcY : c ≤ Y.length := by
        simp only [List.sum_cons] at hs; omega
      have hrest : cs.sum ≤ (Y.drop c).length := by
        simp only [List.sum_cons] at hs
        simp only [List.length_drop]; omega
      simp only [stageRows, List.length_append, length_transposeM, List.length_take,
        List.sum_cons]
      rw [ih cs (Y.drop c) (by simpa using hl) hrest]
      omega

lemma zip_cons_eq {α β : Type} (a : α) (as : List α) (b : β) (bs : List β) :
    (a :: as).zip (b :: bs) = (a, b) :: as.zip bs := rfl

lemma hcat_convOutputs (d h : ℕ) :
    ∀ (fs : List MatFn) (cs : List ℕ) (idx : ℕ) (X : Mat),
    fs.length = cs.length →
    (∀ r ∈ X, r.length = d) →
    (∀ f ∈ fs, OutShape d h f) →
    convOutputs (fs.zip cs) idx (transposeM d X) ≠ [] →
    hcat (convOutputs (fs.zip cs) idx (transposeM d X)) =
      transposeM h (stageRows d fs cs (X.drop idx)) := by
  intro fs
  induction fs with
  | nil =>
    intro cs idx X _ _ _ hne
    exact absurd (by simp [convOutputs]) hne
  | cons f fs ih =>
    intro cs idx X hl hX hf hne
    cases cs with
    | nil => simp at hl
    | cons c cs =>
      have hlt : fs.length = cs.length := by simpa using hl
      have hftail : ∀ g ∈ fs, OutShape d h g := fun g hg => hf g (by simp [hg])
      by_cases hc : 0 < c
      · have hkey : colSlice idx (idx + c) (transposeM d X)
            = transposeM d ((X.drop idx).take c) := colSlice_transposeM idx c d X
        have hG : ∀ r ∈ (X.drop idx).take c, r.length = d :=
          fun r hr => hX r (List.mem_of_mem_drop (List.mem_of_mem_take hr))
        have hOS := hf f (by simp) ((X.drop idx).take c) hG
        have hE : transposeM h (transposeM ((X.drop idx).take c).length
              (f (transposeM d ((X.drop idx).take c))))
            = f (transposeM d ((X.drop idx).take c)) := by
          have h2 := transposeM_transposeM ((X.drop idx).take c).length
            (f (transposeM d ((X.drop idx).take c))) hOS.2
          rwa [hOS.1] at h2
        have hdrop : (X.drop idx).drop c = X.drop (idx + c) := by
          rw [List.drop_drop]
        rw [zip_cons_eq] at hne ⊢
        simp only [convOutputs, if_pos hc] at hne ⊢
        simp only [stageRows, hdrop]
        by_cases hrest : convOutputs (fs.zip cs) (idx + c) (transposeM d X) = []
        · have haz := allZero_of_convOutputs_eq_nil _ _ _ hrest
          have hcz : ∀ x ∈ cs, x = 0 :=
            snd_zip_forall fs cs (fun x => x = 0) (le_of_eq hlt.symm) haz
          rw [hrest, stageRows_nil_of_allZero d fs cs _ hcz, List.append_nil]
          simp only [hcat]
          rw [hkey]
          exact hE.symm
        · rw [hcat_cons _ _ hrest, ih cs (idx + c) X hlt hX hftail hrest,
            transposeM_append, hE, hkey]
      · have hc0 : c = 0 := by omega
        subst hc0
        rw [zip_cons_eq] at hne ⊢
        simp only [convOutputs, lt_irrefl, if_false] at hne ⊢
        have hstage : stageRows d (f :: fs) (0 :: cs) (X.drop idx)
            = stageRows d fs cs (X.drop idx) := by
          simp only [stageRows, List.take_zero, List.drop_zero, List.length_nil]
          rw [show transposeM 0 (f (transposeM d [])) = [] from rfl, List.nil_append]
        rw [hstage]
        exact ih cs idx X hlt hX hftail hne

lemma widthM_of_rect (d : ℕ) (X : Mat) (hne : X ≠ []) (hX : ∀ r ∈ X, r.length = d) :
    widthM X = d := by
  cases X with
  | nil => exact absurd rfl hne
  | cons r X => exact hX r (by simp)

lemma widthM_transposeM (d : ℕ) (hd : 0 < d) (Z : Mat) :
    widthM (transposeM d Z) = Z.length := by
  obtain ⟨k, rfl⟩ := Nat.exists_eq_succ_of_ne_zero (Nat.pos_iff_ne_zero.mp hd)
  simp [widthM, transposeM, List.range_succ_eq_map]

lemma sum_pos_of_mem (cs : List ℕ) (c : ℕ) (hc : c ∈ cs) (hpos : 0 < c) : 0 < cs.sum :=
  lt_of_lt_of_le hpos (List.single_le_sum (fun x _ => Nat.zero_le x) c hc)

lemma torchCat2_of_ne_nil (ts : List Mat) (h : ts ≠ []) : torchCat2 ts = some (hcat ts) := by
  cases ts with
  | nil => exact absurd rfl h
  | cons t ts => rfl

lemma exists_pos_pair (fs : List MatFn) (cs : List ℕ) (hl : fs.length = cs.length)
    (h : ∃ c ∈ cs, 0 < c) : ∃ p ∈ fs.zip cs, 0 < p.2 := by
  obtain ⟨c, hc, hcp⟩ := h
  rw [← List.map_snd_zip fs cs (le_of_eq hl.symm)] at hc
  obtain ⟨p, hp, hpe⟩ := List.mem_map.mp hc
  exact ⟨p, hp, by rw [hpe]; exact hcp⟩

lemma rect_map_act (σ : ℚ → ℚ) (h : ℕ) (A : Mat) (hA : ∀ r ∈ A, r.length = h) :
    ∀ r ∈ A.map (List.map σ), r.length = h := by
  intro r hr
  obtain ⟨r0, hr0, rfl⟩ := List.mem_map.mp hr
  simp [hA r0 hr0]

lemma convForward_eq (d h : ℕ) (fs1 fs2 : List MatFn) (σ : ℚ → ℚ)
    (cs : List ℕ) (inp : Mat)
    (hd : 0 < d)
    (hl1 : fs1.length = cs.length) (hl2 : fs2.length = cs.length)
    (hrect : ∀ r ∈ inp, r.length = d)
    (hsum : cs.sum ≤ inp.length)
    (hpos : ∃ c ∈ cs, 0 < c)
    (hf1 : ∀ f ∈ fs1, OutShape d h f)
    (hf2 : ∀ f ∈ fs2, OutShape h d f) :
    ConvExpert.forward ⟨d, fs1, fs2, σ⟩ inp cs =
      some (stageRows h fs2 cs ((stageRows d fs1 cs inp).map (List.map σ))) := by
  obtain ⟨c0, hc0mem, hc0pos⟩ := hpos
  have hsumpos : 0 < cs.sum := sum_pos_of_mem cs c0 hc0mem hc0pos
  have hinplen : 0 < inp.length := lt_of_lt_of_le hsumpos hsum
  have hinpne : inp ≠ [] := by
    cases inp with
    | nil => simp at hinplen
    | cons r inp => simp
  have hw : transpose2 inp = transposeM d inp := by
    rw [transpose2, widthM_of_rect d inp hinpne hrect]
  have hne1 : convOutputs (fs1.zip cs) 0 (transposeM d inp) ≠ [] :=
    convOutputs_ne_nil _ _ _ (exists_pos_pair fs1 cs hl1 ⟨c0, hc0mem, hc0pos⟩)
  have h1 : hcat (convOutputs (fs1.zip cs) 0 (transposeM d inp))
      = transposeM h (stageRows d fs1 cs inp) := by
    have hc := hcat_convOutputs d h fs1 cs 0 inp hl1 hrect hf1 hne1
    rwa [List.drop_zero] at hc
  have hA1rect : ∀ r ∈ stageRows d fs1 cs inp, r.length = h :=
    stageRows_rect d h fs1 cs inp hf1 hrect
  have hact : (transposeM h (stageRows d fs1 cs inp)).map (List.map σ)
      = transposeM h ((stageRows d fs1 cs inp).map (List.map σ)) :=
    map_map_transposeM σ h _ hA1rect
  have hA2rect : ∀ r ∈ (stageRows d fs1 cs inp).map (List.map σ), r.length = h :=
    rect_map_act σ h _ hA1rect
  have hne2 : convOutputs (fs2.zip cs) 0
      (transposeM h ((stageRows d fs1 cs inp).map (List.map σ))) ≠ [] :=
    convOutputs_ne_nil _ _ _ (exists_pos_pair fs2 cs hl2 ⟨c0, hc0mem, hc0pos⟩)
  have h2 : hcat (convOutputs (fs2.zip cs) 0
        (transposeM h ((stageRows d fs1 cs inp).map (List.map σ))))
      = transposeM d (stageRows h fs2 cs ((stageRows d fs1 cs inp).map (List.map σ))) := by
    have hc := hcat_convOutputs h d fs2 cs 0 _ hl2 hA2rect hf2 hne2
    rwa [List.drop_zero] at hc
  have hZ2rect : ∀ r ∈ stageRows h fs2 cs ((stageRows d fs1 cs inp).map (List.map σ)),
      r.length = d :=
    stageRows_rect h d fs2 cs _ hf2 hA2rect
  have hfinal : transpose2 (transposeM d
        (stageRows h fs2 cs ((stageRows d fs1 cs inp).map (List.map σ))))
      = stageRows h fs2 cs ((stageRows d fs1 cs inp).map (List.map σ)) := by
    rw [transpose2, widthM_transposeM d hd]
    exact transposeM_transposeM d _ hZ2rect
  simp only [ConvExpert.forward]
  rw [hw, torchCat2_of_ne_nil _ hne1, Option.some_bind, h1, hact,
    torchCat2_of_ne_nil _ hne2, Option.some_bind, h2, hfinal]

lemma conv1x1_transposeM (d : ℕ) (hd : 0 < d) (W : Mat) (b : List ℚ)
    (hb : b.length = W.length) (Y : Mat) (hY : ∀ r ∈ Y, r.length = d) :
    conv1x1 W b (transposeM d Y) = transposeM W.length (Y.map (affineRow W b)) := by
  have htt : transpose2 (transposeM d Y) = Y := by
    rw [transpose2, widthM_transposeM d hd]
    exact transposeM_transposeM d Y hY
  rw [conv1x1, htt]
  apply List.ext_getElem
  · simp [length_transposeM, hb]
  · intro j h1 h2
    have hj : j < W.length := by
      simpa [List.length_zipWith, hb] using h1
    rw [List.getElem_zipWith, getElem_transposeM, List.map_map]
    apply List.map_congr_left
    intro y hy
    simp only [Function.comp_apply]
    have hjaff : j < (affineRow W b y).length := by
      simp [affineRow, List.length_zipWith, hb]
      omega
    rw [List.getD_eq_getElem _ _ hjaff]
    simp [affineRow, List.getElem_zipWith]

lemma outShape_conv1x1 (d h : ℕ) (hd : 0 < d) (W : Mat) (b : List ℚ)
    (hb : b.length = W.length) (hW : W.length = h) : OutShape d h (conv1x1 W b) := by
  intro Y hY
  rw [conv1x1_transposeM d hd W b hb Y hY]
  constructor
  · simp [length_transposeM, hW]
  · intro r hr
    have hlr := length_of_mem_transposeM _ _ _ hr
    simp [hlr]

lemma stageRows_conv1x1 (d h : ℕ) (hd : 0 < d) :
    ∀ (Ws : List Mat) (bs : List (List ℚ)) (cs : List ℕ) (inp : Mat),
    Ws.length = bs.length →
    (∀ W ∈ Ws, W.length = h) → (∀ b ∈ bs, b.length = h) →
    (∀ r ∈ inp, r.length = d) →
    stageRows d ((Ws.zip bs).map (fun p => conv1x1 p.1 p.2)) cs inp
      = fmoeLoop Ws bs cs inp := by
  intro Ws
  induction Ws with
  | nil =>
    intro bs cs inp _ _ _ _
    cases bs <;> cases cs <;> simp [stageRows, fmoeLoop]
  | cons W Ws ih =>
    intro bs cs inp hl hW hbl hrect
    cases bs with
    | nil => simp at hl
    | cons b bs =>
      cases cs with
      | nil =>
        rw [zip_cons_eq, List.map_cons]
        simp [stageRows, fmoeLoop]
      | cons c cs =>
        rw [zip_cons_eq, List.map_cons]
        simp only [stageRows, fmoeLoop]
        have hbW : b.length = W.length := by
          rw [hbl b (by simp), hW W (by simp)]
        congr 1
        · have hG : ∀ r ∈ inp.take c, r.length = d :=
            fun r hr => hrect r (List.mem_of_mem_take hr)
          rw [conv1x1_transposeM d hd W b hbW _ hG]
          have hlen : (inp.take c).length = ((inp.take c).map (affineRow W b)).length := by
            simp
          rw [hlen]
          apply transposeM_transposeM
          intro r hr
          obtain ⟨y, hy, rfl⟩ := List.mem_map.mp hr
          simp [affineRow, List.length_zipWith, hbW]
        · exact ih bs cs (inp.drop c) (by simpa using hl)
            (fun w hw => hW w (by simp [hw])) (fun x hx => hbl x (by simp [hx]))
            (fun r hr => hrect r (List.mem_of_mem_drop hr))

lemma fmoeLoop_length :
    ∀ (Ws : List Mat) (bs : List (List ℚ)) (cs : List ℕ) (inp : Mat),
    Ws.length = cs.length → bs.length = cs.length → cs.sum ≤ inp.length →
    (fmoeLoop Ws bs cs inp).length = cs.sum := by
  intro Ws
  induction Ws with
  | nil =>
    intro bs cs inp hl _ _
    have : cs = [] := by
      cases cs with
      | nil => rfl
      | cons c cs => simp at hl
    subst this
    cases bs <;> simp [fmoeLoop]
  | cons W Ws ih =>
    intro bs cs inp hl hlb hs
    cases cs with
    | nil => simp at hl
    | cons c cs =>
      cases bs with
      | nil => simp at hlb
      | cons b bs =>
        have hcY : c ≤ inp.length := by
          simp only [List.sum_cons] at hs; omega
        have hrest : cs.sum ≤ (inp.drop c).length := by
          simp only [List.sum_cons] at hs
          simp only [List.length_drop]; omega
        simp only [fmoeLoop, List.length_append, List.length_map, List.length_take,
          List.sum_cons]
        rw [ih bs cs (inp.drop c) (by simpa using hl) (by simpa using hlb) hrest]
        omega

lemma fmoeLoop_rect (h : ℕ) :
    ∀ (Ws : List Mat) (bs : List (List ℚ)) (cs : List ℕ) (inp : Mat),
    (∀ W ∈ Ws, W.length = h) → (∀ b ∈ bs, b.length = h) →
    ∀ r ∈ fmoeLoop Ws bs cs inp, r.length = h := by
  intro Ws
  induction Ws with
  | nil =>
    intro bs cs inp _ _ r hr
    cases bs <;> cases cs <;> simp [fmoeLoop] at hr
  | cons W Ws ih =>
    intro bs cs inp hW hb r hr
    cases bs with
    | nil => simp [fmoeLoop] at hr
    | cons b bs =>
      cases cs with
      | nil => simp [fmoeLoop] at hr
      | cons c cs =>
        simp only [fmoeLoop] at hr
        rcases List.mem_append.mp hr with h1 | h2
        · obtain ⟨x, hx, rfl⟩ := List.mem_map.mp h1
          have hbW : b.length = W.length := by
            rw [hb b (by simp), hW W (by simp)]
          simp [affineRow, List.length_zipWith, hbW, hW W (by simp)]
        · exact ih bs cs (inp.drop c) (fun w hw => hW w (by simp [hw]))
            (fun x hx => hb x (by simp [hx])) r h2

lemma fmoeLoop_getD :
    ∀ (cs : List ℕ) (Ws : List Mat) (bs : List (List ℚ)) (inp : Mat) (t : ℕ),
    Ws.length = cs.length → bs.length = cs.length →
    cs.sum = inp.length → t < inp.length →
    (fmoeLoop Ws bs cs inp).getD t [] =
      affineRow (Ws.getD (expertOfIdx cs t) []) (bs.getD (expertOfIdx cs t) [])
        (inp.getD t []) := by
  intro cs
  induction cs with
  | nil =>
    intro Ws bs inp t _ _ hsum ht
    rw [← hsum] at ht
    simp at ht
  | cons c cs ih =>
    intro Ws bs inp t hl hlb hsum ht
    cases Ws with
    | nil => simp at hl
    | cons W Ws =>
      cases bs with
      | nil => simp at hlb
      | cons b bs =>
        have hcle : c ≤ inp.length := by
          simp only [List.sum_cons] at hsum; omega
        have hfirst : ((inp.take c).map (affineRow W b)).length = c := by
          simp [List.length_take]
          omega
        simp only [fmoeLoop]
        by_cases htc : t < c
        · rw [List.getD_append _ _ _ _ (by rw [hfirst]; exact htc)]
          have htlen : t < ((inp.take c).map (affineRow W b)).length := by
            rw [hfirst]; exact htc
          rw [List.getD_eq_getElem _ _ htlen, List.getElem_map, List.getElem_take,
            List.getD_eq_getElem _ _ ht]
          simp [expertOfIdx, htc]
        · rw [List.getD_append_right _ _ _ _ (by rw [hfirst]; omega), hfirst]
          have hsumtail : cs.sum = (inp.drop c).length := by
            simp only [List.sum_cons] at hsum
            simp only [List.length_drop]; omega
          have httail : t - c < (inp.drop c).length := by
            simp only [List.length_drop]; omega
          rw [ih Ws bs (inp.drop c) (t - c) (by simpa using hl) (by simpa using hlb)
            hsumtail httail]
          have hdget : (inp.drop c).getD (t - c) [] = inp.getD t [] := by
            rw [List.getD_eq_getElem _ _ httail, List.getD_eq_getElem _ _ ht]
            rw [List.getElem_drop]
            congr 1
            omega
          rw [hdget]
          simp only [expertOfIdx, if_neg htc, List.getD_cons_succ]

lemma convOutputs_filter :
    ∀ (l : List (MatFn × ℕ)) (idx : ℕ) (M : Mat),
    convOutputs l idx M = convOutputs (l.filter (fun p => 0 < p.2)) idx M := by
  intro l
  induction l with
  | nil => intro idx M; rfl
  | cons p l ih =>
    intro idx M
    obtain ⟨f, c⟩ := p
    by_cases hc : 0 < c
    · rw [List.filter_cons_of_pos (by simpa using hc)]
      simp only [convOutputs, if_pos hc]
      rw [ih]
    · rw [List.filter_cons_of_neg (by simpa using hc)]
      simp only [convOutputs, if_neg hc]
      exact ih idx M

lemma map_snd_filter_pos :
    ∀ (l : List (MatFn × ℕ)),
    (l.filter (fun p => 0 < p.2)).map Prod.snd
      = (l.map Prod.snd).filter (fun c => 0 < c) := by
  intro l
  induction l with
  | nil => rfl
  | cons p l ih =>
    obtain ⟨f, c⟩ := p
    by_cases hc : 0 < c
    · rw [List.filter_cons_of_pos (by simpa using hc), List.map_cons, List.map_cons,
        List.filter_cons_of_pos (by simpa using hc), ih]
    · rw [List.filter_cons_of_neg (by simpa using hc), List.map_cons,
        List.filter_cons_of_neg (by simpa using hc), ih]

lemma zip_of_map_fst_snd :
    ∀ (l : List (MatFn × ℕ)), (l.map Prod.fst).zip (l.map Prod.snd) = l := by
  intro l
  have h := List.zip_unzip l
  rwa [List.unzip_eq_map] at h

lemma zip_filter_pos (fs : List MatFn) (cs : List ℕ) (hl : fs.length = cs.length) :
    (fs.zip cs).filter (fun p => 0 < p.2)
      = (((fs.zip cs).filter (fun p => 0 < p.2)).map Prod.fst).zip
          (cs.filter (fun c => 0 < c)) := by
  have h1 := zip_of_map_fst_snd ((fs.zip cs).filter (fun p => 0 < p.2))
  have h2 : ((fs.zip cs).filter (fun p => 0 < p.2)).map Prod.snd
      = cs.filter (fun c => 0 < c) := by
    rw [map_snd_filter_pos, List.map_snd_zip fs cs (le_of_eq hl.symm)]
  rw [← h2]
  exact h1.symm

lemma chunkRows_length (d : ℕ) : ∀ (n : ℕ) (xs : List ℚ), (chunkRows n d xs).length = n := by
  intro n
  induction n with
  | zero => intro xs; rfl
  | succ n ih => intro xs; simp [chunkRows, ih]

lemma chunkRows_rect (d : ℕ) : ∀ (n : ℕ) (xs : List ℚ), n * d ≤ xs.length →
    ∀ r ∈ chunkRows n d xs, r.length = d := by
  intro n
  induction n with
  | zero => intro xs _ r hr; simp [chunkRows] at hr
  | succ n ih =>
    intro xs hle r hr
    have hmul : (n + 1) * d = n * d + d := by ring
    simp only [chunkRows] at hr
    rcases List.mem_cons.mp hr with h1 | h2
    · subst h1
      simp only [List.length_take]
      omega
    · apply ih (xs.drop d) _ r h2
      simp only [List.length_drop]
      omega

lemma flatten_length_rect (d : ℕ) : ∀ (L : Mat), (∀ r ∈ L, r.length = d) →
    L.flatten.length = L.length * d := by
  intro L
  induction L with
  | nil => intro _; simp
  | cons r L ih =>
    intro h
    simp only [List.flatten_cons, List.length_append, List.length_cons]
    rw [h r (by simp), ih (fun x hx => h x (by simp [hx]))]
    ring

lemma wrapper_forward_of_dvd (m : FMoETransformerMLP) (t : Tensor)
    (hinv : t.data.length = t.shape.prod) (hd : 0 < m.d_model)
    (hpipe : PipeContract m.d_model m.superForward)
    (hdvd : m.d_model ∣ t.data.length) :
    m.forward t = some ⟨t.shape,
      (m.superForward (chunkRows (t.data.length / m.d_model) m.d_model t.data)).flatten⟩ := by
  have hrows : t.reshapeRows m.d_model
      = some (chunkRows (t.data.length / m.d_model) m.d_model t.data) := by
    simp only [Tensor.reshapeRows]
    rw [if_pos ⟨hd, hdvd⟩]
  have hlen : (m.superForward (chunkRows (t.data.length / m.d_model) m.d_model t.data)).length
      = t.data.length / m.d_model := by
    rw [(hpipe _).1, chunkRows_length]
  have hflat : (m.superForward
        (chunkRows (t.data.length / m.d_model) m.d_model t.data)).flatten.length
      = t.data.length := by
    rw [flatten_length_rect m.d_model _ (hpipe _).2, hlen, Nat.div_mul_cancel hdvd]
  simp only [FMoETransformerMLP.forward]
  rw [hrows, Option.some_bind]
  simp only [Tensor.ofRows]
  rw [if_pos (by rw [hflat, hinv])]

lemma wrapper_forward_of_not_dvd (m : FMoETransformerMLP) (t : Tensor)
    (h : ¬ m.d_model ∣ t.data.length) : m.forward t = none := by
  have hrows : t.reshapeRows m.d_model = none := by
    simp only [Tensor.reshapeRows]
    rw [if_neg (by intro hc; exact h hc.2)]
  simp only [FMoETransformerMLP.forward]
  rw [hrows, Option.none_bind]

lemma linForward_unfold (lin : LinearExpert) (cs : List ℕ) (inp : Mat) :
    lin.forward inp cs
      = fmoeLoop lin.h4toh.weight lin.h4toh.bias cs
          ((fmoeLoop lin.htoh4.weight lin.htoh4.bias cs inp).map (List.map lin.activation)) :=
  rfl

lemma linForward_length (lin : LinearExpert) (cs : List ℕ) (inp : Mat)
    (hl1 : lin.htoh4.weight.length = cs.length) (hb1 : lin.htoh4.bias.length = cs.length)
    (hl2 : lin.h4toh.weight.length = cs.length) (hb2 : lin.h4toh.bias.length = cs.length)
    (hsum : cs.sum = inp.length) :
    (lin.forward inp cs).length = inp.length := by
  have hA : ((fmoeLoop lin.htoh4.weight lin.htoh4.bias cs inp).map
      (List.map lin.activation)).length = cs.sum := by
    simp only [List.length_map]
    exact fmoeLoop_length _ _ _ _ hl1 hb1 (le_of_eq hsum)
  rw [linForward_unfold, fmoeLoop_length _ _ _ _ hl2 hb2 (le_of_eq hA.symm), hsum]

lemma linForward_rect (d : ℕ) (lin : LinearExpert) (cs : List ℕ) (inp : Mat)
    (hW2 : ∀ W ∈ lin.h4toh.weight, W.length = d)
    (hb2 : ∀ b ∈ lin.h4toh.bias, b.length = d) :
    ∀ r ∈ lin.forward inp cs, r.length = d := by
  rw [linForward_unfold]
  exact fmoeLoop_rect d _ _ _ _ hW2 hb2

lemma linForward_getD (lin : LinearExpert) (cs : List ℕ) (inp : Mat)
    (hl1 : lin.htoh4.weight.length = cs.length) (hb1 : lin.htoh4.bias.length = cs.length)
    (hl2 : lin.h4toh.weight.length = cs.length) (hb2 : lin.h4toh.bias.length = cs.length)
    (hsum : cs.sum = inp.length) (t : ℕ) (ht : t < inp.length) :
    (lin.forward inp cs).getD t [] = linTokenMap lin cs t (inp.getD t []) := by
  have hAlen : (fmoeLoop lin.htoh4.weight lin.htoh4.bias cs inp).length = cs.sum :=
    fmoeLoop_length _ _ _ _ hl1 hb1 (le_of_eq hsum)
  have hA2len : ((fmoeLoop lin.htoh4.weight lin.htoh4.bias cs inp).map
      (List.map lin.activation)).length = cs.sum := by
    simp [hAlen]
  have htA : t < ((fmoeLoop lin.htoh4.weight lin.htoh4.bias cs inp).map
      (List.map lin.activation)).length := by
    rw [hA2len, hsum]; exact ht
  have htA0 : t < (fmoeLoop lin.htoh4.weight lin.htoh4.bias cs inp).length := by
    rw [hAlen, hsum]; exact ht
  rw [linForward_unfold,
    fmoeLoop_getD cs _ _ _ t hl2 hb2 (by rw [hA2len]) htA]
  have hmid : ((fmoeLoop lin.htoh4.weight lin.htoh4.bias cs inp).map
        (List.map lin.activation)).getD t []
      = ((fmoeLoop lin.htoh4.weight lin.htoh4.bias cs inp).getD t []).map
          lin.activation := by
    rw [List.getD_eq_getElem _ _ htA, List.getD_eq_getElem _ _ htA0, List.getElem_map]
  rw [hmid, fmoeLoop_getD cs _ _ _ t hl1 hb1 hsum ht]
  rfl

/-- C9: when every entry of the counts vector is zero (empty token batch),
the per-expert-loop convolution variant raises an error, because it calls
torch.cat on an empty list of per-expert outputs, instead of returning an
empty zero-row output. -/
theorem C9_all_zero_counts_raises (e : ConvExpert) (inp : Mat) (cs : List ℕ)
    (hz : ∀ c ∈ cs, c = 0) : e.forward inp cs = none := by
  have h1 : convOutputs (e.htoh4.zip cs) 0 (transpose2 inp) = [] :=
    convOutputs_eq_nil_of _ _ _ (fun p hp => by
      obtain ⟨f, c⟩ := p
      exact hz c (List.of_mem_zip hp).2)
  simp only [ConvExpert.forward]
  rw [h1]
  rfl

/-- Witness for C9 at an all-zero counts vector on an empty batch. -/
theorem C9_all_zero_counts_raises_witness :
    (∀ c ∈ [0, 0], c = 0) ∧
      ConvExpert.forward ⟨1, [conv1x1 [[1]] [0]], [conv1x1 [[1]] [0]], id⟩ [] [0, 0]
        = none :=
  ⟨by decide, C9_all_zero_counts_raises _ _ _ (by decide)⟩

/-- C4 counterexample: constructing the wrapper with an expert selector that
matches neither variant raises no error; it returns a module whose experts
sub-module is simply left unset, refuting the claimed fail-fast behavior. -/
theorem C4_counterexample :
    FMoETransformerMLP.init ExpertImpl.otherImpl
        ⟨⟨[], []⟩, ⟨[], []⟩, id⟩ ⟨1, [], [], id⟩ 1 id
      = { d_model := 1, superForward := id, experts := none } := rfl

/-- C4 amended: for an unsupported expert-implementation selector the
constructor does not fail fast: the if/elif chain of
FMoETransformerMLP.__init__ has no else branch and the body raises nothing,
so construction always completes, silently leaving the experts sub-module
unassigned. -/
theorem C4_amended_silent_construction (lin : LinearExpert) (conv : ConvExpert)
    (dm : ℕ) (sf : Mat → Mat) :
    FMoETransformerMLP.init ExpertImpl.otherImpl lin conv dm sf
      = { d_model := dm, superForward := sf, experts := none } := rfl

/-- C3 counterexample: the wrapper's forward entry point takes exactly one
tensor parameter, forward(self, inp), so it does not accept an auxiliary
gating-feature tensor. -/
theorem C3_counterexample : FMoETransformerMLP.forwardTensorArgs ≠ 2 := by decide

/-- C3 amended: forward accepts only the main token tensor (one tensor
parameter, no auxiliary gating-feature parameter), and routing always uses
the main input itself: forward flattens the main input, delegates exactly
that flattened batch to the inherited pipeline, and restores the original
shape. -/
theorem C3_amended_main_input_only :
    FMoETransformerMLP.forwardTensorArgs = 1 ∧
      ∀ (m : FMoETransformerMLP) (t : Tensor),
        m.forward t = (t.reshapeRows m.d_model).bind
          (fun rows => Tensor.ofRows t.shape (m.superForward rows)) :=
  ⟨rfl, fun m t => rfl⟩

/-- C5 counterexample: two tokens are supplied but the counts sum to one;
the convolution variant raises no precondition error and silently returns a
single output row, truncating the batch (Python column slices clamp). -/
theorem C5_counterexample :
    ConvExpert.forward ⟨1, [conv1x1 [[1]] [0]], [conv1x1 [[1]] [0]], id⟩
        [[1], [2]] [1] = some [[1]]
      ∧ ([[(1 : ℚ)], [2]] : Mat).length = 2 ∧ List.sum [1] = 1 := by
  refine ⟨?_, by decide, by decide⟩
  norm_num [ConvExpert.forward, convOutputs, conv1x1, transpose2, widthM, transposeM,
    colSlice, torchCat2, hcat, dotQ, affineRow, List.range_succ, List.range_zero]

/-- C5 amended: the expert compute operation performs no validation of
sum(counts) against the number of supplied tokens: whenever the counts sum
to at most N with at least one positive count, the convolution variant
raises nothing and returns exactly sum(counts) rows, silently truncating
the batch when sum(counts) < N (the fused-linear variant delegates this
case to the external primitive, whose behavior the spec leaves
undefined). -/
theorem C5_amended_silent_truncation (d h : ℕ) (fs1 fs2 : List MatFn) (σ : ℚ → ℚ)
    (cs : List ℕ) (inp : Mat) (hd : 0 < d)
    (hl1 : fs1.length = cs.length) (hl2 : fs2.length = cs.length)
    (hrect : ∀ r ∈ inp, r.length = d) (hsum : cs.sum ≤ inp.length)
    (hpos : ∃ c ∈ cs, 0 < c)
    (hf1 : ∀ f ∈ fs1, OutShape d h f) (hf2 : ∀ f ∈ fs2, OutShape h d f) :
    ∃ out : Mat, ConvExpert.forward ⟨d, fs1, fs2, σ⟩ inp cs = some out
      ∧ out.length = cs.sum := by
  refine ⟨_, convForward_eq d h fs1 fs2 σ cs inp hd hl1 hl2 hrect hsum hpos hf1 hf2, ?_⟩
  have hA1len : (stageRows d fs1 cs inp).length = cs.sum :=
    stageRows_length d fs1 cs inp hl1 hsum
  have hA2len : ((stageRows d fs1 cs inp).map (List.map σ)).length = cs.sum := by
    simp [hA1len]
  exact stageRows_length h fs2 cs _ hl2 (le_of_eq hA2len.symm)

/-- Witness for C5 amended at the truncating input of the counterexample:
two tokens, counts summing to one. -/
theorem C5_amended_silent_truncation_witness :
    (0 < 1 ∧ ([[(1 : ℚ)], [2]] : Mat).length = 2 ∧ List.sum [1] = 1
        ∧ (∀ r ∈ ([[(1 : ℚ)], [2]] : Mat), r.length = 1) ∧ (∃ c ∈ [1], 0 < c))
      ∧ ∃ out : Mat,
          ConvExpert.forward ⟨1, [conv1x1 [[1]] [0]], [conv1x1 [[1]] [0]], id⟩
            [[1], [2]] [1] = some out ∧ out.length = List.sum [1] :=
  ⟨⟨by decide, by decide, by decide, by decide, by decide⟩,
    C5_amended_silent_truncation 1 1 _ _ id [1] [[1], [2]] (by decide) (by decide)
      (by decide) (by decide) (by decide) (by decide)
      (by
        intro f hf
        rw [List.mem_singleton] at hf
        subst hf
        exact outShape_conv1x1 1 1 (by decide) [[1]] [0] rfl rfl)
      (by
        intro f hf
        rw [List.mem_singleton] at hf
        subst hf
        exact outShape_conv1x1 1 1 (by decide) [[1]] [0] rfl rfl)⟩

/-- C6: the fused-linear expert variant computes exactly the three-stage
composition expansion projection, elementwise activation, contraction
projection, passing the same counts vector to both projections; per token,
the output row at position t is that composition with the weights of the
expert owning position t. -/
theorem C6_linear_three_stage (lin : LinearExpert) (cs : List ℕ) (inp : Mat)
    (hl1 : lin.htoh4.weight.length = cs.length) (hb1 : lin.htoh4.bias.length = cs.length)
    (hl2 : lin.h4toh.weight.length = cs.length) (hb2 : lin.h4toh.bias.length = cs.length)
    (hsum : cs.sum = inp.length) :
    lin.forward inp cs
        = lin.h4toh.apply ((lin.htoh4.apply inp cs).map (List.map lin.activation)) cs
      ∧ ∀ t : ℕ, t < inp.length →
          (lin.forward inp cs).getD t [] = linTokenMap lin cs t (inp.getD t []) :=
  ⟨rfl, fun t ht => linForward_getD lin cs inp hl1 hb1 hl2 hb2 hsum t ht⟩

/-- Witness for C6 on a two-expert instance with two tokens. -/
theorem C6_linear_three_stage_witness :
    (List.sum [1, 1] = ([[(1 : ℚ)], [2]] : Mat).length)
      ∧ (LinearExpert.forward ⟨⟨[[[2]], [[3]]], [[1], [0]]⟩, ⟨[[[1]], [[2]]], [[0], [1]]⟩,
            fun x => x * x⟩ [[1], [2]] [1, 1]
          = FMoELinear.apply ⟨[[[1]], [[2]]], [[0], [1]]⟩
              ((FMoELinear.apply ⟨[[[2]], [[3]]], [[1], [0]]⟩ [[1], [2]] [1, 1]).map
                (List.map (fun x => x * x))) [1, 1]
        ∧ ∀ t : ℕ, t < ([[(1 : ℚ)], [2]] : Mat).length →
            (LinearExpert.forward ⟨⟨[[[2]], [[3]]], [[1], [0]]⟩, ⟨[[[1]], [[2]]], [[0], [1]]⟩,
                fun x => x * x⟩ [[1], [2]] [1, 1]).getD t []
              = linTokenMap ⟨⟨[[[2]], [[3]]], [[1], [0]]⟩, ⟨[[[1]], [[2]]], [[0], [1]]⟩,
                  fun x => x * x⟩ [1, 1] t (([[(1 : ℚ)], [2]] : Mat).getD t [])) :=
  ⟨by decide,
    C6_linear_three_stage ⟨⟨[[[2]], [[3]]], [[1], [0]]⟩, ⟨[[[1]], [[2]]], [[0], [1]]⟩,
      fun x => x * x⟩ [1, 1] [[1], [2]] (by decide) (by decide) (by decide) (by decide)
      (by decide)⟩

/-- C7: zero-count experts are skipped entirely by the per-expert loop: with
at least one zero and one positive count, the output coincides with that of
the module retaining only the positive-count experts (in the same ascending
order) applied to the counts with the zero entries removed — so the
zero-count experts' sub-modules are never invoked and contribute nothing —
and no error is raised. -/
theorem C7_zero_count_skipped (d : ℕ) (fs1 fs2 : List MatFn) (σ : ℚ → ℚ)
    (cs : List ℕ) (inp : Mat)
    (hl1 : fs1.length = cs.length) (hl2 : fs2.length = cs.length)
    (hzero : 0 ∈ cs) (hpos : ∃ c ∈ cs, 0 < c) :
    ConvExpert.forward ⟨d, fs1, fs2, σ⟩ inp cs
        = ConvExpert.forward
            ⟨d, ((fs1.zip cs).filter (fun p => 0 < p.2)).map Prod.fst,
              ((fs2.zip cs).filter (fun p => 0 < p.2)).map Prod.fst, σ⟩
            inp (cs.filter (fun c => 0 < c))
      ∧ (ConvExpert.forward ⟨d, fs1, fs2, σ⟩ inp cs).isSome := by
  have key1 : ∀ M : Mat, convOutputs (fs1.zip cs) 0 M
      = convOutputs ((((fs1.zip cs).filter (fun p => 0 < p.2)).map Prod.fst).zip
          (cs.filter (fun c => 0 < c))) 0 M := by
    intro M
    rw [convOutputs_filter (fs1.zip cs) 0 M, ← zip_filter_pos fs1 cs hl1,
      convOutputs_filter]
  have key2 : ∀ M : Mat, convOutputs (fs2.zip cs) 0 M
      = convOutputs ((((fs2.zip cs).filter (fun p => 0 < p.2)).map Prod.fst).zip
          (cs.filter (fun c => 0 < c))) 0 M := by
    intro M
    rw [convOutputs_filter (fs2.zip cs) 0 M, ← zip_filter_pos fs2 cs hl2,
      convOutputs_filter]
  constructor
  · simp only [ConvExpert.forward]
    rw [key1 (transpose2 inp)]
    simp only [key2]
  · simp only [ConvExpert.forward]
    have hne1 : convOutputs (fs1.zip cs) 0 (transpose2 inp) ≠ [] :=
      convOutputs_ne_nil _ _ _ (exists_pos_pair fs1 cs hl1 hpos)
    rw [torchCat2_of_ne_nil _ hne1, Option.some_bind]
    have hne2 : convOutputs (fs2.zip cs) 0
        ((hcat (convOutputs (fs1.zip cs) 0 (transpose2 inp))).map (List.map σ)) ≠ [] :=
      convOutputs_ne_nil _ _ _ (exists_pos_pair fs2 cs hl2 hpos)
    rw [torchCat2_of_ne_nil _ hne2, Option.some_bind]
    rfl

/-- Witness for C7 with a zero-count first expert and a positive-count
second expert. -/
theorem C7_zero_count_skipped_witness :
    ((0 ∈ [0, 1]) ∧ (∃ c ∈ [0, 1], 0 < c))
      ∧ (ConvExpert.forward
            ⟨1, [conv1x1 [[5]] [0], conv1x1 [[1]] [0]],
              [conv1x1 [[7]] [0], conv1x1 [[1]] [0]], id⟩ [[1]] [0, 1]
          = ConvExpert.forward
              ⟨1, (([conv1x1 [[5]] [0], conv1x1 [[1]] [0]].zip [0, 1]).filter
                    (fun p => 0 < p.2)).map Prod.fst,
                (([conv1x1 [[7]] [0], conv1x1 [[1]] [0]].zip [0, 1]).filter
                    (fun p => 0 < p.2)).map Prod.fst, id⟩
              [[1]] ([0, 1].filter (fun c => 0 < c))
        ∧ (ConvExpert.forward
            ⟨1, [conv1x1 [[5]] [0], conv1x1 [[1]] [0]],
              [conv1x1 [[7]] [0], conv1x1 [[1]] [0]], id⟩ [[1]] [0, 1]).isSome) :=
  ⟨⟨by decide, by decide⟩,
    C7_zero_count_skipped 1 _ _ id [0, 1] [[1]] (by decide) (by decide) (by decide)
      (by decide)⟩

/-- C1: on a valid grouped batch (counts of the experts' arity, summing to
the token count N, with at least one token), both expert variants return
exactly N output rows of dimension d_model in the input token order: the
fused-linear variant maps the row at each position t to the three-stage
image of the input row at t under the expert owning t, and the convolution
variant returns the ascending-expert-order concatenation of the per-group
results, one output row per input token in group order. -/
theorem C1_compute_shape_and_order
    (lin : LinearExpert) (σ : ℚ → ℚ) (d h : ℕ) (fs1 fs2 : List MatFn)
    (cs : List ℕ) (inp : Mat)
    (hLw1 : lin.htoh4.weight.length = cs.length) (hLb1 : lin.htoh4.bias.length = cs.length)
    (hLw2 : lin.h4toh.weight.length = cs.length) (hLb2 : lin.h4toh.bias.length = cs.length)
    (hW2 : ∀ W ∈ lin.h4toh.weight, W.length = d) (hb2 : ∀ b ∈ lin.h4toh.bias, b.length = d)
    (hd : 0 < d) (hl1 : fs1.length = cs.length) (hl2 : fs2.length = cs.length)
    (hf1 : ∀ f ∈ fs1, OutShape d h f) (hf2 : ∀ f ∈ fs2, OutShape h d f)
    (hrect : ∀ r ∈ inp, r.length = d) (hsum : cs.sum = inp.length)
    (hpos : ∃ c ∈ cs, 0 < c) :
    ((lin.forward inp cs).length = inp.length
      ∧ (∀ r ∈ lin.forward inp cs, r.length = d)
      ∧ ∀ t : ℕ, t < inp.length →
          (lin.forward inp cs).getD t [] = linTokenMap lin cs t (inp.getD t []))
    ∧ ∃ out : Mat,
        ConvExpert.forward ⟨d, fs1, fs2, σ⟩ inp cs = some out
        ∧ out.length = inp.length
        ∧ (∀ r ∈ out, r.length = d)
        ∧ out = stageRows h fs2 cs ((stageRows d fs1 cs inp).map (List.map σ)) := by
  refine ⟨⟨linForward_length lin cs inp hLw1 hLb1 hLw2 hLb2 hsum,
    linForward_rect d lin cs inp hW2 hb2,
    fun t ht => linForward_getD lin cs inp hLw1 hLb1 hLw2 hLb2 hsum t ht⟩, ?_⟩
  refine ⟨_, convForward_eq d h fs1 fs2 σ cs inp hd hl1 hl2 hrect (le_of_eq hsum)
    hpos hf1 hf2, ?_, ?_, rfl⟩
  · have hA1len : (stageRows d fs1 cs inp).length = cs.sum :=
      stageRows_length d fs1 cs inp hl1 (le_of_eq hsum)
    have hA2len : ((stageRows d fs1 cs inp).map (List.map σ)).length = cs.sum := by
      simp [hA1len]
    rw [stageRows_length h fs2 cs _ hl2 (le_of_eq hA2len.symm), hsum]
  · exact stageRows_rect h d fs2 cs _ hf2
      (rect_map_act σ h _ (stageRows_rect d h fs1 cs inp hf1 hrect))

/-- Witness for C1 on a two-expert instance with two tokens split one per
expert. -/
theorem C1_compute_shape_and_order_witness :
    (0 < 1 ∧ List.sum [1, 1] = ([[(1 : ℚ)], [2]] : Mat).length ∧ (∃ c ∈ [1, 1], 0 < c))
      ∧ (((LinearExpert.forward ⟨⟨[[[2]], [[3]]], [[1], [0]]⟩, ⟨[[[1]], [[2]]], [[0], [1]]⟩,
              fun x => x * x⟩ [[1], [2]] [1, 1]).length = ([[(1 : ℚ)], [2]] : Mat).length
          ∧ (∀ r ∈ LinearExpert.forward ⟨⟨[[[2]], [[3]]], [[1], [0]]⟩,
                ⟨[[[1]], [[2]]], [[0], [1]]⟩, fun x => x * x⟩ [[1], [2]] [1, 1], r.length = 1)
          ∧ ∀ t : ℕ, t < ([[(1 : ℚ)], [2]] : Mat).length →
              (LinearExpert.forward ⟨⟨[[[2]], [[3]]], [[1], [0]]⟩,
                  ⟨[[[1]], [[2]]], [[0], [1]]⟩, fun x => x * x⟩ [[1], [2]] [1, 1]).getD t []
                = linTokenMap ⟨⟨[[[2]], [[3]]], [[1], [0]]⟩, ⟨[[[1]], [[2]]], [[0], [1]]⟩,
                    fun x => x * x⟩ [1, 1] t (([[(1 : ℚ)], [2]] : Mat).getD t []))
        ∧ ∃ out : Mat,
            ConvExpert.forward ⟨1, [conv1x1 [[2]] [1], conv1x1 [[3]] [0]],
                [conv1x1 [[1]] [0], conv1x1 [[2]] [1]], fun x => x * x⟩ [[1], [2]] [1, 1]
              = some out
            ∧ out.length = ([[(1 : ℚ)], [2]] : Mat).length
            ∧ (∀ r ∈ out, r.length = 1)
            ∧ out = stageRows 1 [conv1x1 [[1]] [0], conv1x1 [[2]] [1]] [1, 1]
                ((stageRows 1 [conv1x1 [[2]] [1], conv1x1 [[3]] [0]] [1, 1]
                  [[1], [2]]).map (List.map (fun x => x * x)))) :=
  ⟨⟨by decide, by decide, by decide⟩,
    C1_compute_shape_and_order
      ⟨⟨[[[2]], [[3]]], [[1], [0]]⟩, ⟨[[[1]], [[2]]], [[0], [1]]⟩, fun x => x * x⟩
      (fun x => x * x) 1 1
      [conv1x1 [[2]] [1], conv1x1 [[3]] [0]] [conv1x1 [[1]] [0], conv1x1 [[2]] [1]]
      [1, 1] [[1], [2]]
      (by decide) (by decide) (by decide) (by decide) (by decide) (by decide) (by decide)
      (by decide) (by decide)
      (by
        intro f hf
        rcases List.mem_cons.mp hf with h1 | h2
        · subst h1; exact outShape_conv1x1 1 1 (by decide) [[2]] [1] rfl rfl
        · rw [List.mem_singleton] at h2
          subst h2; exact outShape_conv1x1 1 1 (by decide) [[3]] [0] rfl rfl)
      (by
        intro f hf
        rcases List.mem_cons.mp hf with h1 | h2
        · subst h1; exact outShape_conv1x1 1 1 (by decide) [[1]] [0] rfl rfl
        · rw [List.mem_singleton] at h2
          subst h2; exact outShape_conv1x1 1 1 (by decide) [[2]] [1] rfl rfl)
      (by decide) (by decide) (by decide)⟩

/-- C2: with parameters mapped equivalently (each expert's 1-by-1
convolution kernel equal to the corresponding fused-linear weight matrix,
with equal biases), the fused-linear variant and the per-expert-loop
convolution variant configured with kernel_size 1 and dilation 1 produce
exactly equal outputs on every valid grouped batch, over exact rational
arithmetic (hence numerically equivalent within any floating-point
tolerance). -/
theorem C2_variant_equivalence (d h : ℕ) (W1s : List Mat) (b1s : List (List ℚ))
    (W2s : List Mat) (b2s : List (List ℚ)) (σ : ℚ → ℚ) (cs : List ℕ) (inp : Mat)
    (hd : 0 < d) (hh : 0 < h)
    (hl1 : W1s.length = cs.length) (hlb1 : b1s.length = cs.length)
    (hl2 : W2s.length = cs.length) (hlb2 : b2s.length = cs.length)
    (hW1 : ∀ W ∈ W1s, W.length = h) (hb1 : ∀ b ∈ b1s, b.length = h)
    (hW2 : ∀ W ∈ W2s, W.length = d) (hb2 : ∀ b ∈ b2s, b.length = d)
    (hrect : ∀ r ∈ inp, r.length = d) (hsum : cs.sum = inp.length)
    (hpos : ∃ c ∈ cs, 0 < c) :
    ConvExpert.forward
        ⟨d, (W1s.zip b1s).map (fun p => conv1x1 p.1 p.2),
          (W2s.zip b2s).map (fun p => conv1x1 p.1 p.2), σ⟩ inp cs
      = some (LinearExpert.forward ⟨⟨W1s, b1s⟩, ⟨W2s, b2s⟩, σ⟩ inp cs) := by
  have hlen1 : ((W1s.zip b1s).map (fun p => conv1x1 p.1 p.2)).length = cs.length := by
    simp only [List.length_map, List.length_zip, hl1, hlb1]
    exact min_self _
  have hlen2 : ((W2s.zip b2s).map (fun p => conv1x1 p.1 p.2)).length = cs.length := by
    simp only [List.length_map, List.length_zip, hl2, hlb2]
    exact min_self _
  have hOS1 : ∀ f ∈ (W1s.zip b1s).map (fun p => conv1x1 p.1 p.2), OutShape d h f := by
    intro f hf
    obtain ⟨p, hp, rfl⟩ := List.mem_map.mp hf
    obtain ⟨W, b⟩ := p
    obtain ⟨hpW, hpb⟩ := List.of_mem_zip hp
    exact outShape_conv1x1 d h hd W b (by rw [hb1 b hpb, hW1 W hpW]) (hW1 W hpW)
  have hOS2 : ∀ f ∈ (W2s.zip b2s).map (fun p => conv1x1 p.1 p.2), OutShape h d f := by
    intro f hf
    obtain ⟨p, hp, rfl⟩ := List.mem_map.mp hf
    obtain ⟨W, b⟩ := p
    obtain ⟨hpW, hpb⟩ := List.of_mem_zip hp
    exact outShape_conv1x1 h d hh W b (by rw [hb2 b hpb, hW2 W hpW]) (hW2 W hpW)
  have hA1rect : ∀ r ∈ (fmoeLoop W1s b1s cs inp).map (List.map σ), r.length = h :=
    rect_map_act σ h _ (fmoeLoop_rect h W1s b1s cs inp hW1 hb1)
  rw [convForward_eq d h _ _ σ cs inp hd hlen1 hlen2 hrect (le_of_eq hsum) hpos hOS1 hOS2,
    stageRows_conv1x1 d h hd W1s b1s cs inp (by rw [hl1, hlb1]) hW1 hb1 hrect,
    stageRows_conv1x1 h d hh W2s b2s cs _ (by rw [hl2, hlb2]) hW2 hb2 hA1rect]
  rfl

/-- Witness for C2 on the two-expert instance with two tokens split one per
expert. -/
theorem C2_variant_equivalence_witness :
    (0 < 1 ∧ List.sum [1, 1] = ([[(1 : ℚ)], [2]] : Mat).length ∧ (∃ c ∈ [1, 1], 0 < c)
        ∧ (∀ r ∈ ([[(1 : ℚ)], [2]] : Mat), r.length = 1))
      ∧ ConvExpert.forward
          ⟨1, (([[[(2 : ℚ)]], [[3]]].zip [[1], [0]]).map (fun p => conv1x1 p.1 p.2)),
            (([[[(1 : ℚ)]], [[2]]].zip [[0], [1]]).map (fun p => conv1x1 p.1 p.2)),
            fun x => x * x⟩ [[1], [2]] [1, 1]
        = some (LinearExpert.forward ⟨⟨[[[2]], [[3]]], [[1], [0]]⟩,
            ⟨[[[1]], [[2]]], [[0], [1]]⟩, fun x => x * x⟩ [[1], [2]] [1, 1]) :=
  ⟨⟨by decide, by decide, by decide, by decide⟩,
    C2_variant_equivalence 1 1 [[[2]], [[3]]] [[1], [0]] [[[1]], [[2]]] [[0], [1]]
      (fun x => x * x) [1, 1] [[1], [2]] (by decide) (by decide) (by decide) (by decide)
      (by decide) (by decide) (by decide) (by decide) (by decide) (by decide)
      (by decide) (by decide) (by decide)⟩

/-- C8: for an input tensor whose trailing dimension equals d_model and
whose data matches its shape, the wrapper's forward flattens all leading
dimensions into one token axis, delegates to the inherited pipeline, and
restores the original shape, so the output has exactly the input's
shape. -/
theorem C8_shape_round_trip (m : FMoETransformerMLP) (t : Tensor) (s : List ℕ)
    (hshape : t.shape = s ++ [m.d_model])
    (hinv : t.data.length = t.shape.prod)
    (hd : 0 < m.d_model)
    (hpipe : PipeContract m.d_model m.superForward) :
    ∃ u : Tensor, m.forward t = some u ∧ u.shape = t.shape := by
  have hdvd : m.d_model ∣ t.data.length := by
    rw [hinv, hshape, List.prod_append, List.prod_cons, List.prod_nil, mul_one]
    exact dvd_mul_left _ _
  exact ⟨_, wrapper_forward_of_dvd m t hinv hd hpipe hdvd, rfl⟩

/-- Witness for C8 with d_model 8 and an input of shape (2, 3, 8). -/
theorem C8_shape_round_trip_witness :
    (0 < 8 ∧ ([2, 3, 8] : List ℕ) = [2, 3] ++ [8]
        ∧ (List.replicate 48 (0 : ℚ)).length = List.prod [2, 3, 8]
        ∧ PipeContract 8 (fun rows => rows.map (fun _ => List.replicate 8 (0 : ℚ))))
      ∧ ∃ u : Tensor,
          FMoETransformerMLP.forward
              ⟨8, fun rows => rows.map (fun _ => List.replicate 8 (0 : ℚ)), none⟩
              ⟨[2, 3, 8], List.replicate 48 0⟩
            = some u
          ∧ u.shape = (⟨[2, 3, 8], List.replicate 48 0⟩ : Tensor).shape :=
  ⟨⟨by decide, by decide, by decide,
      fun rows => ⟨by simp, by
        intro r hr
        obtain ⟨x, hx, rfl⟩ := List.mem_map.mp hr
        simp⟩⟩,
    C8_shape_round_trip ⟨8, fun rows => rows.map (fun _ => List.replicate 8 (0 : ℚ)), none⟩
      ⟨[2, 3, 8], List.replicate 48 0⟩ [2, 3] (by decide) (by decide) (by decide)
      (fun rows => ⟨by simp, by
        intro r hr
        obtain ⟨x, hx, rfl⟩ := List.mem_map.mp hr
        simp⟩)⟩

/-- C10: the wrapper's forward performs no validation of the trailing
dimension against d_model: under the pipeline contract it succeeds exactly
when d_model divides the total element count, silently reshaping any such
tensor to (-1, d_model) even when the actual trailing dimension differs,
and fails only otherwise. -/
theorem C10_no_trailing_dim_validation (m : FMoETransformerMLP) (t : Tensor)
    (hinv : t.data.length = t.shape.prod) (hd : 0 < m.d_model)
    (hpipe : PipeContract m.d_model m.superForward) :
    (m.forward t).isSome ↔ m.d_model ∣ t.data.length := by
  constructor
  · intro hs
    by_contra hdvd
    rw [wrapper_forward_of_not_dvd m t hdvd] at hs
    simp at hs
  · intro hdvd
    rw [wrapper_forward_of_dvd m t hinv hd hpipe hdvd]
    rfl

/-- Witness for C10 with d_model 4 on a tensor of shape (4, 2), whose
trailing dimension 2 differs from d_model while the element count 8 is a
multiple of 4. -/
theorem C10_no_trailing_dim_validation_witness :
    (0 < 4 ∧ (List.replicate 8 (0 : ℚ)).length = List.prod [4, 2]
        ∧ PipeContract 4 (fun rows => rows.map (fun _ => List.replicate 4 (0 : ℚ))))
      ∧ ((FMoETransformerMLP.forward
            ⟨4, fun rows => rows.map (fun _ => List.replicate 4 (0 : ℚ)), none⟩
            ⟨[4, 2], List.replicate 8 0⟩).isSome
          ↔ 4 ∣ (List.replicate 8 (0 : ℚ)).length) :=
  ⟨⟨by decide, by decide,
      fun rows => ⟨by simp, by
        intro r hr
        obtain ⟨x, hx, rfl⟩ := List.mem_map.mp hr
        simp⟩⟩,
    C10_no_trailing_dim_validation
      ⟨4, fun rows => rows.map (fun _ => List.replicate 4 (0 : ℚ)), none⟩
      ⟨[4, 2], List.replicate 8 0⟩ (by decide) (by decide)
      (fun rows => ⟨by simp, by
        intro r hr
        obtain ⟨x, hx, rfl⟩ := List.mem_map.mp hr
        simp⟩)⟩
